import Mathlib

/-!
Verification of the MD5-cracking coordinator/worker system.

The coordinator (`server.py`) owns a cursor over the keyspace
`[START_NUMBER, END_NUMBER]`, hands out blocks sized by the client's core
count, tracks one outstanding assignment per client, and latches a global
`found` flag with the reported value.  The worker (`client.py`) splits an
assigned block across its cores and scans each sub-range in increasing
order, hashing the 10-digit zero-padded decimal representation of every
candidate with MD5 and comparing the upper-cased hex digest to the target.

The embedding below models the coordinator as a pure state-transition
system (`ServerState`, `assign_work`, `handle_found`, `cleanup_client`,
`register_client`, `step`, `runOps`) and the worker-side scan as a pure
function (`worker`), including a full executable MD5 so the concrete
scenarios of the spec can be evaluated inside Lean.
-/

/-- Constant `TARGET_HASH` from server.py. -/
def TARGET_HASH : String := "EC9C0F7EDCC18A98B1F31853B1813301"

/-- Constant `START_NUMBER = 0` from server.py. -/
def START_NUMBER : Int := 0

/-- Constant `END_NUMBER = 1 * 10 ** 10 - 1` from server.py. -/
def END_NUMBER : Int := 1 * 10 ^ 10 - 1

/-- Constant `BLOCK_SIZE_PER_CORE = 200000` from server.py. -/
def BLOCK_SIZE_PER_CORE : Int := 200000

/-- The coordinator's mutable module-level state in server.py:
`current_number` (the cursor), `found`, `found_number`, the `clients`
list (connection id paired with its core count), and the `assigned_work`
dictionary (connection id mapped to the `(start, end)` block).
`broadcasts` counts how many times `notify_all_clients` has run, so that
fan-out stop broadcasts are observable in the model. -/
structure ServerState where
  current_number : Int
  found : Bool
  found_number : Option String
  clients : List (Nat × Int)
  assigned_work : List (Nat × Int × Int)
  broadcasts : Nat
deriving Repr, DecidableEq

/-- The state at server start: cursor at `START_NUMBER`, nothing found,
no clients, no assignments. -/
def initialState : ServerState :=
  { current_number := START_NUMBER
    found := false
    found_number := none
    clients := []
    assigned_work := []
    broadcasts := 0 }

/-- The reply `assign_work` sends to the requesting client: a `stop`
message, a `no_work` message, or a `work` message carrying the block
bounds and the target hash. -/
inductive Reply where
  | stop
  | noWork
  | work (start fin : Int) (target_hash : String)
deriving Repr, DecidableEq

/-- `register_client` from server.py: reads `cores` from the message
(defaulting to 1 when absent) and appends the client to `clients`.
Returns the core count together with the new state, mirroring the
Python function's return value. -/
def register_client (conn : Nat) (cores : Option Int) (s : ServerState) :
    Int × ServerState :=
  let client_cores := cores.getD 1
  (client_cores, { s with clients := s.clients ++ [(conn, client_cores)] })

/-- `assign_work` from server.py: removes any previous work assigned to
this client, replies `stop` if `found`, otherwise carves the block
`[current_number, min (current_number + block_size - 1) END_NUMBER]`
where `block_size = BLOCK_SIZE_PER_CORE * client_cores`, replying
`no_work` when the cursor is past `END_NUMBER` and otherwise advancing
the cursor past the block and recording it in `assigned_work`. -/
def assign_work (conn : Nat) (client_cores : Int) (s : ServerState) :
    Reply × ServerState :=
  let s := { s with assigned_work := s.assigned_work.filter (fun p => p.1 ≠ conn) }
  if s.found then
    (Reply.stop, s)
  else
    let block_size := BLOCK_SIZE_PER_CORE * client_cores
    let start := s.current_number
    let fin := min (s.current_number + block_size - 1) END_NUMBER
    if END_NUMBER < start then
      (Reply.noWork, s)
    else
      (Reply.work start fin TARGET_HASH,
       { s with
          current_number := fin + 1
          assigned_work := (conn, start, fin) :: s.assigned_work })

/-- `notify_all_clients` from server.py: sends `stop` to every registered
client.  In the model its observable effect is one fan-out broadcast,
counted in `broadcasts`. -/
def notify_all_clients (s : ServerState) : ServerState :=
  { s with broadcasts := s.broadcasts + 1 }

/-- `handle_found` from server.py: removes the reporter's assignment,
latches `found := true` and `found_number := number` only when `found`
is not yet set, then calls `notify_all_clients` unconditionally. -/
def handle_found (conn : Nat) (number : String) (s : ServerState) : ServerState :=
  let s := { s with assigned_work := s.assigned_work.filter (fun p => p.1 ≠ conn) }
  let s :=
    if s.found then s
    else { s with found := true, found_number := some number }
  notify_all_clients s

/-- `cleanup_client` from server.py: pops the client's assignment (the
popped range is dropped on the floor) and removes the client from
`clients`. -/
def cleanup_client (conn : Nat) (s : ServerState) : ServerState :=
  { s with
      assigned_work := s.assigned_work.filter (fun p => p.1 ≠ conn)
      clients := s.clients.filter (fun c => c.1 ≠ conn) }

/-- One coordinator operation, as driven by `handle_client` in
server.py: a `register` message, a `request_work` message (carrying the
session's core count), a `found` report, or a disconnect. -/
inductive Op where
  | register (conn : Nat) (cores : Option Int)
  | requestWork (conn : Nat) (cores : Int)
  | reportFound (conn : Nat) (number : String)
  | disconnect (conn : Nat)
deriving Repr, DecidableEq

/-- The state transition performed by one coordinator operation. -/
def step (s : ServerState) : Op → ServerState
  | Op.register conn cores => (register_client conn cores s).2
  | Op.requestWork conn cores => (assign_work conn cores s).2
  | Op.reportFound conn number => handle_found conn number s
  | Op.disconnect conn => cleanup_client conn s

/-- The blocks issued by one operation from state `s`: a singleton when
a `request_work` receives a `work` reply, empty otherwise. -/
def issuedBy (s : ServerState) : Op → List (Int × Int)
  | Op.requestWork conn cores =>
      match (assign_work conn cores s).1 with
      | Reply.work a b _ => [(a, b)]
      | _ => []
  | _ => []

/-- Runs a sequence of coordinator operations, collecting every block
issued by a `work` reply along the way. -/
def runOps (s : ServerState) : List Op → List (Int × Int) × ServerState
  | [] => ([], s)
  | op :: rest =>
      let r := runOps (step s op) rest
      (issuedBy s op ++ r.1, r.2)

/-- Runs a sequence of `request_work` calls (connection id, core count),
collecting the issued blocks. -/
def runRequests (s : ServerState) : List (Nat × Int) → List (Int × Int) × ServerState
  | [] => ([], s)
  | (conn, cores) :: rest =>
      let r := assign_work conn cores s
      let t := runRequests r.2 rest
      (match r.1 with
       | Reply.work a b _ => (a, b) :: t.1
       | _ => t.1,
       t.2)

/-- Core count of an operation: the `cores` of a `request_work`, 1 for
every other operation.  Well-formed traces have all core counts ≥ 1,
the invariant `parallelism ≥ 1` of the data model. -/
def opCores : Op → Int
  | Op.requestWork _ cores => cores
  | _ => 1

/-- A trace is well formed when every `request_work` carries a core
count of at least 1. -/
def wfOps (ops : List Op) : Bool :=
  ops.all (fun op => decide (1 ≤ opCores op))

/-- The client-side split of a work block in `process_work` (client.py):
`per_process = total // cores` with `total = end - start + 1`, using
Python's floor division. -/
def per_process (start fin cores : Int) : Int :=
  Int.fdiv (fin - start + 1) cores

/-- Start of sub-range `i` in `process_work`:
`process_start = start + i * per_process`. -/
def process_start (start fin cores i : Int) : Int :=
  start + i * per_process start fin cores

/-- End of sub-range `i` in `process_work`:
`start + (i + 1) * per_process - 1` for every process but the last,
which ends at `end`. -/
def process_end (start fin cores i : Int) : Int :=
  if i < cores - 1 then start + (i + 1) * per_process start fin cores - 1 else fin

/-- Pads a decimal string on the left with zeros to width `w`, the
behaviour of Python's `0`-fill for a non-negative integer. -/
def zeroPad (w : Nat) (s : String) : String :=
  String.mk (List.replicate (w - s.length) '0') ++ s

/-- The format `f"{number:010d}"` used by `worker` in client.py: the
number's decimal representation zero-padded to width 10 (sign first for
negative numbers, as in Python). -/
def numStr (n : Int) : String :=
  if n < 0 then "-" ++ zeroPad 9 (toString (-n).toNat) else zeroPad 10 (toString n.toNat)

/-- The UTF-8 bytes of an ASCII string, as fed to `hashlib.md5` by
`num_str.encode()`. -/
def strBytes (s : String) : List Nat :=
  s.data.map Char.toNat

/-- Two to the 32nd, the modulus of MD5's 32-bit word arithmetic. -/
def M32 : Nat := 4294967296

/-- The MD5 per-round left-rotation amounts. -/
def MD5_S : List Nat :=
  [7, 12, 17, 22, 7, 12, 17, 22, 7, 12, 17, 22, 7, 12, 17, 22,
   5, 9, 14, 20, 5, 9, 14, 20, 5, 9, 14, 20, 5, 9, 14, 20,
   4, 11, 16, 23, 4, 11, 16, 23, 4, 11, 16, 23, 4, 11, 16, 23,
   6, 10, 15, 21, 6, 10, 15, 21, 6, 10, 15, 21, 6, 10, 15, 21]

/-- The MD5 per-round additive constants (floor of 2^32 times the
absolute sine of i + 1). -/
def MD5_K : List Nat :=
  [0xd76aa478, 0xe8c7b756, 0x242070db, 0xc1bdceee,
   0xf57c0faf, 0x4787c62a, 0xa8304613, 0xfd469501,
   0x698098d8, 0x8b44f7af, 0xffff5bb1, 0x895cd7be,
   0x6b901122, 0xfd987193, 0xa679438e, 0x49b40821,
   0xf61e2562, 0xc040b340, 0x265e5a51, 0xe9b6c7aa,
   0xd62f105d, 0x02441453, 0xd8a1e681, 0xe7d3fbc8,
   0x21e1cde6, 0xc33707d6, 0xf4d50d87, 0x455a14ed,
   0xa9e3e905, 0xfcefa3f8, 0x676f02d9, 0x8d2a4c8a,
   0xfffa3942, 0x8771f681, 0x6d9d6122, 0xfde5380c,
   0xa4beea44, 0x4bdecfa9, 0xf6bb4b60, 0xbebfbc70,
   0x289b7ec6, 0xeaa127fa, 0xd4ef3085, 0x04881d05,
   0xd9d4d039, 0xe6db99e5, 0x1fa27cf8, 0xc4ac5665,
   0xf4292244, 0x432aff97, 0xab9423a7, 0xfc93a039,
   0x655b59c3, 0x8f0ccc92, 0xffeff47d, 0x85845dd1,
   0x6fa87e4f, 0xfe2ce6e0, 0xa3014314, 0x4e0811a1,
   0xf7537e82, 0xbd3af235, 0x2ad7d2bb, 0xeb86d391]

/-- Rotates the low 32 bits of `x` left by `c`. -/
def rotl (x c : Nat) : Nat :=
  ((x <<< c) ||| (x >>> (32 - c))) % M32

/-- The MD5 round mixing function, selected by round index `i`. -/
def md5F (i b c d : Nat) : Nat :=
  if i < 16 then (b &&& c) ||| ((b ^^^ 4294967295) &&& d)
  else if i < 32 then (d &&& b) ||| ((d ^^^ 4294967295) &&& c)
  else if i < 48 then b ^^^ c ^^^ d
  else c ^^^ (b ||| (d ^^^ 4294967295))

/-- The MD5 message-word index for round `i`. -/
def md5G (i : Nat) : Nat :=
  if i < 16 then i
  else if i < 32 then (5 * i + 1) % 16
  else if i < 48 then (3 * i + 5) % 16
  else (7 * i) % 16

/-- One MD5 round on the state `(a, b, c, d)` with message words `m`. -/
def md5Round (m : List Nat) (i : Nat) : Nat × Nat × Nat × Nat → Nat × Nat × Nat × Nat
  | (a, b, c, d) =>
    let f := (md5F i b c d + a + MD5_K.getD i 0 + m.getD (md5G i) 0) % M32
    (d, (b + rotl f (MD5_S.getD i 0)) % M32, b, c)

/-- Runs MD5 rounds `i, i + 1, ...` for `fuel` steps. -/
def md5Loop (m : List Nat) (i : Nat) (fuel : Nat) (st : Nat × Nat × Nat × Nat) :
    Nat × Nat × Nat × Nat :=
  match fuel with
  | 0 => st
  | k + 1 => md5Loop m (i + 1) k (md5Round m i st)

/-- Decodes a byte list into little-endian 32-bit words. -/
def toWordsLE : List Nat → List Nat
  | b0 :: b1 :: b2 :: b3 :: rest =>
      (b0 + 256 * b1 + 65536 * b2 + 16777216 * b3) :: toWordsLE rest
  | _ => []

/-- Splits a byte list into 64-byte chunks; the fuel argument bounds the
number of chunks and is structurally decreasing. -/
def chunks64Aux : Nat → List Nat → List (List Nat)
  | 0, _ => []
  | _, [] => []
  | fuel + 1, b :: rest =>
      ((b :: rest).take 64) :: chunks64Aux fuel ((b :: rest).drop 64)

/-- Splits a byte list into 64-byte chunks. -/
def chunks64 (bytes : List Nat) : List (List Nat) :=
  chunks64Aux bytes.length bytes

/-- Folds the MD5 compression function over the chunks. -/
def md5Chunks : List (List Nat) → Nat × Nat × Nat × Nat → Nat × Nat × Nat × Nat
  | [], st => st
  | chunk :: rest, (a0, b0, c0, d0) =>
      let r := md5Loop (toWordsLE chunk) 0 64 (a0, b0, c0, d0)
      md5Chunks rest
        ((a0 + r.1) % M32, (b0 + r.2.1) % M32, (c0 + r.2.2.1) % M32, (d0 + r.2.2.2) % M32)

/-- The little-endian bytes of `n`, `fuel` of them. -/
def lenBytesLE (fuel n : Nat) : List Nat :=
  match fuel with
  | 0 => []
  | k + 1 => (n % 256) :: lenBytesLE k (n / 256)

/-- MD5 padding: append `0x80`, zero bytes up to 56 mod 64, then the
original bit length as 8 little-endian bytes. -/
def md5Pad (msg : List Nat) : List Nat :=
  let padLen := (56 + 64 - (msg.length + 1) % 64) % 64
  msg ++ [0x80] ++ List.replicate padLen 0 ++ lenBytesLE 8 ((msg.length * 8) % 2 ^ 64)

/-- The MD5 state after hashing `msg`, starting from the standard
initialisation vector. -/
def md5 (msg : List Nat) : Nat × Nat × Nat × Nat :=
  md5Chunks (chunks64 (md5Pad msg)) (0x67452301, 0xefcdab89, 0x98badcfe, 0x10325476)

/-- Lowercase hex digit for a value below 16. -/
def hexChar (n : Nat) : Char :=
  if n < 10 then Char.ofNat (48 + n) else Char.ofNat (87 + n)

/-- The two lowercase hex digits of a byte. -/
def byteHex (b : Nat) : List Char :=
  [hexChar (b / 16), hexChar (b % 16)]

/-- The four little-endian bytes of a 32-bit word. -/
def wordBytesLE (w : Nat) : List Nat :=
  [w % 256, w / 256 % 256, w / 65536 % 256, w / 16777216 % 256]

/-- `hexdigest()` of an MD5 state: the 16 digest bytes (a, b, c, d in
little-endian order) printed as 32 lowercase hex characters. -/
def hexdigest (st : Nat × Nat × Nat × Nat) : String :=
  String.mk
    (((wordBytesLE st.1 ++ wordBytesLE st.2.1 ++ wordBytesLE st.2.2.1 ++
       wordBytesLE st.2.2.2).map byteHex).flatten)

/-- Python's `str.upper()` for ASCII strings: upper-cases every
character. -/
def strUpper (s : String) : String :=
  String.mk (s.data.map Char.toUpper)

/-- `hashlib.md5(num_str.encode()).hexdigest().upper()` from `worker` in
client.py, as a function of the candidate number. -/
def hash_result (n : Int) : String :=
  strUpper (hexdigest (md5 (strBytes (numStr n))))

/-- The scanning loop of `worker` in client.py, with the number of
remaining candidates as fuel: tests candidates `n, n + 1, ...` in
increasing order and returns the formatted string of the first one
whose MD5 digest matches the target. -/
def workerAux (target : String) : Int → Nat → Option String
  | _, 0 => none
  | n, k + 1 =>
      if hash_result n = target then some (numStr n) else workerAux target (n + 1) k

/-- `worker` from client.py: scans `range(start, end + 1)` for a
candidate whose upper-cased MD5 hex digest equals `target_hash`,
reporting the formatted string of the first match (the value put on the
result queue), or nothing when the range is exhausted. -/
def worker (start fin : Int) (target_hash : String) : Option String :=
  workerAux target_hash start (fin + 1 - start).toNat

/-- A list of blocks tiles the interval from cursor `c` up to cursor
`c'`: each block starts exactly at the running cursor, is non-empty,
stays within `END_NUMBER`, and the next block continues right after it. -/
def Chain : Int → List (Int × Int) → Int → Prop
  | c, [], c' => c = c'
  | c, (a, b) :: rest, c' => a = c ∧ c ≤ b ∧ b ≤ END_NUMBER ∧ Chain (b + 1) rest c'

/-- The coordinator state reached by: a single client with one core
registers, receives the block `[0, 199999]`, and disconnects before
reporting.  `cleanup_client` drops the popped assignment, so the block
is lost. -/
def lostWorkState : ServerState :=
  cleanup_client 0 (assign_work 0 1 (register_client 0 (some 1) initialState).2).2

/-- The coordinator state with two one-core clients registered and
nothing found yet. -/
def twoClientsState : ServerState :=
  (register_client 1 (some 1) (register_client 0 (some 1) initialState).2).2

lemma assign_work_of_found {s : ServerState} (conn : Nat) (cores : Int)
    (h : s.found = true) :
    assign_work conn cores s =
      (Reply.stop,
       { s with assigned_work := s.assigned_work.filter (fun p => p.1 ≠ conn) }) := by
  simp [assign_work, h]

lemma assign_work_of_exhausted {s : ServerState} (conn : Nat) (cores : Int)
    (h : s.found = false) (h2 : END_NUMBER < s.current_number) :
    assign_work conn cores s =
      (Reply.noWork,
       { s with assigned_work := s.assigned_work.filter (fun p => p.1 ≠ conn) }) := by
  simp [assign_work, h, h2]

lemma assign_work_of_avail {s : ServerState} (conn : Nat) (cores : Int)
    (h : s.found = false) (h2 : s.current_number ≤ END_NUMBER) :
    assign_work conn cores s =
      (Reply.work s.current_number
        (min (s.current_number + BLOCK_SIZE_PER_CORE * cores - 1) END_NUMBER)
        TARGET_HASH,
       { s with
          current_number :=
            min (s.current_number + BLOCK_SIZE_PER_CORE * cores - 1) END_NUMBER + 1
          assigned_work :=
            (conn, s.current_number,
              min (s.current_number + BLOCK_SIZE_PER_CORE * cores - 1) END_NUMBER) ::
              s.assigned_work.filter (fun p => p.1 ≠ conn) }) := by
  simp [assign_work, h, not_lt.mpr h2]

lemma handle_found_of_unset {s : ServerState} (conn : Nat) (v : String)
    (h : s.found = false) :
    handle_found conn v s =
      { s with
          assigned_work := s.assigned_work.filter (fun p => p.1 ≠ conn)
          found := true
          found_number := some v
          broadcasts := s.broadcasts + 1 } := by
  simp [handle_found, notify_all_clients, h]

lemma handle_found_of_set {s : ServerState} (conn : Nat) (v : String)
    (h : s.found = true) :
    handle_found conn v s =
      { s with
          assigned_work := s.assigned_work.filter (fun p => p.1 ≠ conn)
          broadcasts := s.broadcasts + 1 } := by
  simp [handle_found, notify_all_clients, h]

lemma step_found {s : ServerState} (op : Op) (h : s.found = true) :
    (step s op).found = true ∧ (step s op).found_number = s.found_number := by
  cases op with
  | register conn cores => simp [step, register_client, h]
  | requestWork conn cores => rw [step, assign_work_of_found conn cores h]; exact ⟨h, rfl⟩
  | reportFound conn number => rw [step, handle_found_of_set conn number h]; exact ⟨h, rfl⟩
  | disconnect conn => simp [step, cleanup_client, h]

lemma runOps_found (ops : List Op) :
    ∀ s : ServerState, s.found = true →
      (runOps s ops).2.found = true ∧ (runOps s ops).2.found_number = s.found_number := by
  induction ops with
  | nil => exact fun s h => ⟨h, rfl⟩
  | cons op rest ih =>
      intro s h
      have h1 := step_found op h
      have h2 := ih (step s op) h1.1
      exact ⟨h2.1, h2.2.trans h1.2⟩

lemma wfOps_cons {op : Op} {rest : List Op} (h : wfOps (op :: rest) = true) :
    1 ≤ opCores op ∧ wfOps rest = true := by
  simp only [wfOps, List.all_cons, Bool.and_eq_true, decide_eq_true_eq] at h
  exact ⟨h.1, by simpa [wfOps] using h.2⟩

lemma block_size_pos {cores : Int} (h : 1 ≤ cores) :
    1 ≤ BLOCK_SIZE_PER_CORE * cores := by
  have h1 : BLOCK_SIZE_PER_CORE * 1 ≤ BLOCK_SIZE_PER_CORE * cores :=
    mul_le_mul_of_nonneg_left h (by norm_num [BLOCK_SIZE_PER_CORE])
  simp only [mul_one] at h1
  have : (1 : Int) ≤ BLOCK_SIZE_PER_CORE := by norm_num [BLOCK_SIZE_PER_CORE]
  omega

lemma step_cursor_le {s : ServerState} (op : Op) (h : 1 ≤ opCores op) :
    s.current_number ≤ (step s op).current_number := by
  cases op with
  | register conn cores => simp [step, register_client]
  | requestWork conn cores =>
      simp only [opCores] at h
      show s.current_number ≤ (assign_work conn cores s).2.current_number
      rcases Bool.eq_false_or_eq_true s.found with hf | hf
      · rw [assign_work_of_found conn cores hf]
      · rcases le_or_lt s.current_number END_NUMBER with hc | hc
        · rw [assign_work_of_avail conn cores hf hc]
          have := block_size_pos h
          simp only
          omega
        · rw [assign_work_of_exhausted conn cores hf hc]
  | reportFound conn number =>
      show s.current_number ≤ (handle_found conn number s).current_number
      rcases Bool.eq_false_or_eq_true s.found with hf | hf
      · rw [handle_found_of_set conn number hf]
      · rw [handle_found_of_unset conn number hf]
  | disconnect conn => simp [step, cleanup_client]

lemma step_cursor_bound {s : ServerState} (op : Op)
    (h : s.current_number ≤ END_NUMBER + 1) :
    (step s op).current_number ≤ END_NUMBER + 1 := by
  cases op with
  | register conn cores => simpa [step, register_client] using h
  | requestWork conn cores =>
      show (assign_work conn cores s).2.current_number ≤ END_NUMBER + 1
      rcases Bool.eq_false_or_eq_true s.found with hf | hf
      · rw [assign_work_of_found conn cores hf]; exact h
      · rcases le_or_lt s.current_number END_NUMBER with hc | hc
        · rw [assign_work_of_avail conn cores hf hc]
          simp only
          omega
        · rw [assign_work_of_exhausted conn cores hf hc]; exact h
  | reportFound conn number =>
      show (handle_found conn number s).current_number ≤ END_NUMBER + 1
      rcases Bool.eq_false_or_eq_true s.found with hf | hf
      · rw [handle_found_of_set conn number hf]; exact h
      · rw [handle_found_of_unset conn number hf]; exact h
  | disconnect conn => simpa [step, cleanup_client] using h

lemma runOps_cursor_le (ops : List Op) :
    ∀ s : ServerState, wfOps ops = true →
      s.current_number ≤ (runOps s ops).2.current_number := by
  induction ops with
  | nil => exact fun s _ => le_rfl
  | cons op rest ih =>
      intro s hwf
      obtain ⟨hop, hrest⟩ := wfOps_cons hwf
      exact le_trans (step_cursor_le op hop) (ih (step s op) hrest)

lemma runOps_cursor_bound (ops : List Op) :
    ∀ s : ServerState, s.current_number ≤ END_NUMBER + 1 →
      (runOps s ops).2.current_number ≤ END_NUMBER + 1 := by
  induction ops with
  | nil => exact fun s h => h
  | cons op rest ih => exact fun s h => ih (step s op) (step_cursor_bound op h)

lemma assign_work_reply_work {conn : Nat} {cores : Int} {s : ServerState}
    {a b : Int} {t : String}
    (h : (assign_work conn cores s).1 = Reply.work a b t) :
    a = s.current_number ∧ b ≤ END_NUMBER ∧ t = TARGET_HASH := by
  rcases Bool.eq_false_or_eq_true s.found with hf | hf
  · rw [assign_work_of_found conn cores hf] at h; exact absurd h (by simp)
  · rcases le_or_lt s.current_number END_NUMBER with hc | hc
    · rw [assign_work_of_avail conn cores hf hc] at h
      have h' := h
      injection h' with h1 h2 h3
      exact ⟨h1.symm, by omega, h3.symm⟩
    · rw [assign_work_of_exhausted conn cores hf hc] at h; exact absurd h (by simp)

lemma issuedBy_start_ge {s : ServerState} {op : Op} {p : Int × Int}
    (hp : p ∈ issuedBy s op) : p.1 = s.current_number := by
  cases op with
  | register conn cores => simp [issuedBy] at hp
  | requestWork conn cores =>
      simp only [issuedBy] at hp
      rcases hr : (assign_work conn cores s).1 with _ | _ | ⟨a, b, t⟩ <;> rw [hr] at hp
      · simp at hp
      · simp at hp
      · simp at hp
        subst hp
        exact (assign_work_reply_work hr).1
  | reportFound conn number => simp [issuedBy] at hp
  | disconnect conn => simp [issuedBy] at hp

lemma runOps_blocks_start_ge (ops : List Op) :
    ∀ s : ServerState, wfOps ops = true →
      ∀ p ∈ (runOps s ops).1, s.current_number ≤ p.1 := by
  induction ops with
  | nil => intro s _ p hp; simp [runOps] at hp
  | cons op rest ih =>
      intro s hwf p hp
      obtain ⟨hop, hrest⟩ := wfOps_cons hwf
      have hp' : p ∈ issuedBy s op ++ (runOps (step s op) rest).1 := hp
      rcases List.mem_append.mp hp' with h1 | h2
      · exact le_of_eq (issuedBy_start_ge h1).symm
      · exact le_trans (step_cursor_le op hop) (ih (step s op) hrest p h2)

/-- C4: whenever the coordinator's GlobalOutcome is found, `assign_work`
replies `stop` to every `request_work`, for every worker and every core
count, regardless of the cursor's position. -/
theorem requestBlock_stop_when_found (s : ServerState) (h : s.found = true)
    (conn : Nat) (cores : Int) :
    (assign_work conn cores s).1 = Reply.stop := by
  rw [assign_work_of_found conn cores h]

theorem requestBlock_stop_when_found_witness :
    (handle_found 0 "0000000042" initialState).found = true ∧
    (assign_work 1 4 (handle_found 0 "0000000042" initialState)).1 = Reply.stop :=
  ⟨by decide, requestBlock_stop_when_found _ (by decide) 1 4⟩

/-- C5: whenever GlobalOutcome is unset and the cursor is past
`END_NUMBER`, `assign_work` replies `no_work`, leaves the cursor
unchanged, and records no assignment for the requesting worker. -/
theorem requestBlock_noWork_when_exhausted (s : ServerState)
    (h1 : s.found = false) (h2 : END_NUMBER < s.current_number)
    (conn : Nat) (cores : Int) :
    (assign_work conn cores s).1 = Reply.noWork ∧
    (assign_work conn cores s).2.current_number = s.current_number ∧
    (assign_work conn cores s).2.assigned_work.find? (fun p => p.1 == conn) = none := by
  rw [assign_work_of_exhausted conn cores h1 h2]
  refine ⟨rfl, rfl, ?_⟩
  rw [List.find?_eq_none]
  intro x hx
  have := (List.mem_filter.mp hx).2
  simp only [decide_eq_true_eq] at this
  simp [this]

theorem requestBlock_noWork_when_exhausted_witness :
    ({ initialState with current_number := 10 ^ 10 } : ServerState).found = false ∧
    END_NUMBER < ({ initialState with current_number := 10 ^ 10 } : ServerState).current_number ∧
    ((assign_work 0 2 { initialState with current_number := 10 ^ 10 }).1 = Reply.noWork ∧
     (assign_work 0 2 { initialState with current_number := 10 ^ 10 }).2.current_number =
       ({ initialState with current_number := 10 ^ 10 } : ServerState).current_number ∧
     (assign_work 0 2 { initialState with current_number := 10 ^ 10 }).2.assigned_work.find?
       (fun p => p.1 == 0) = none) :=
  ⟨by decide, by decide,
   requestBlock_noWork_when_exhausted _ (by decide) (by decide) 0 2⟩

/-- C3: from any state with GlobalOutcome unset, `handle_found` latches
`found` with the reported value, and every subsequent operation
sequence leaves the outcome `found` with that same value; in particular
a second `handle_found` with a different value does not change it. -/
theorem found_latches_forever (s : ServerState) (conn : Nat) (v : String)
    (h : s.found = false) :
    (handle_found conn v s).found = true ∧
    (handle_found conn v s).found_number = some v ∧
    (∀ conn' : Nat, ∀ v' : String,
      (handle_found conn' v' (handle_found conn v s)).found_number = some v) ∧
    (∀ ops : List Op,
      (runOps (handle_found conn v s) ops).2.found = true ∧
      (runOps (handle_found conn v s) ops).2.found_number = some v) := by
  have h1 : (handle_found conn v s).found = true := by
    rw [handle_found_of_unset conn v h]
  have h2 : (handle_found conn v s).found_number = some v := by
    rw [handle_found_of_unset conn v h]
  refine ⟨h1, h2, ?_, ?_⟩
  · intro conn' v'
    rw [handle_found_of_set conn' v' h1]
    exact h2
  · intro ops
    have := runOps_found ops (handle_found conn v s) h1
    exact ⟨this.1, this.2.trans h2⟩

theorem found_latches_forever_witness :
    initialState.found = false ∧
    ((handle_found 0 "0000000042" initialState).found = true ∧
     (handle_found 0 "0000000042" initialState).found_number = some "0000000042" ∧
     (∀ conn' : Nat, ∀ v' : String,
       (handle_found conn' v' (handle_found 0 "0000000042" initialState)).found_number =
         some "0000000042") ∧
     (∀ ops : List Op,
       (runOps (handle_found 0 "0000000042" initialState) ops).2.found = true ∧
       (runOps (handle_found 0 "0000000042" initialState) ops).2.found_number =
         some "0000000042")) :=
  ⟨by decide, found_latches_forever initialState 0 "0000000042" (by decide)⟩

/-- C9: along every well-formed operation sequence (each `request_work`
declaring at least one core), the cursor never decreases and, when it
starts at most `END_NUMBER + 1`, it stays at most `END_NUMBER + 1`. -/
theorem cursor_monotone_bounded (s : ServerState) (ops : List Op)
    (h : wfOps ops = true) :
    s.current_number ≤ (runOps s ops).2.current_number ∧
    (s.current_number ≤ END_NUMBER + 1 →
      (runOps s ops).2.current_number ≤ END_NUMBER + 1) :=
  ⟨runOps_cursor_le ops s h, fun hb => runOps_cursor_bound ops s hb⟩

theorem cursor_monotone_bounded_witness :
    wfOps [Op.register 0 (some 2), Op.requestWork 0 2, Op.disconnect 0,
           Op.requestWork 1 1, Op.reportFound 1 "0000000042"] = true ∧
    (initialState.current_number ≤
      (runOps initialState
        [Op.register 0 (some 2), Op.requestWork 0 2, Op.disconnect 0,
         Op.requestWork 1 1, Op.reportFound 1 "0000000042"]).2.current_number ∧
     (initialState.current_number ≤ END_NUMBER + 1 →
       (runOps initialState
         [Op.register 0 (some 2), Op.requestWork 0 2, Op.disconnect 0,
          Op.requestWork 1 1, Op.reportFound 1 "0000000042"]).2.current_number ≤
         END_NUMBER + 1)) :=
  ⟨by decide, cursor_monotone_bounded initialState _ (by decide)⟩

/-- C2 (code behaviour at the failing input): a one-core worker is
issued the block `[0, 199999]` and disconnects before reporting;
`cleanup_client` drops the popped assignment without requeueing it, the
cursor stays at `200000`, and along every later well-formed operation
sequence no issued block ever covers any unit of the lost range, so the
range never becomes assignable again. -/
theorem disconnect_drops_range :
    (assign_work 0 1 (register_client 0 (some 1) initialState).2).1 =
      Reply.work 0 199999 TARGET_HASH ∧
    lostWorkState.assigned_work = [] ∧
    lostWorkState.current_number = 200000 ∧
    (∀ ops : List Op, wfOps ops = true →
      ∀ p ∈ (runOps lostWorkState ops).1, ∀ n : Int, n ≤ 199999 →
        ¬(p.1 ≤ n ∧ n ≤ p.2)) := by
  refine ⟨by decide, by decide, by decide, ?_⟩
  intro ops hwf p hp n hn hcon
  have hge := runOps_blocks_start_ge ops lostWorkState hwf p hp
  have hc : lostWorkState.current_number = 200000 := by decide
  rw [hc] at hge
  omega

theorem disconnect_drops_range_witness :
    wfOps [Op.requestWork 1 1] = true ∧
    ((200000 : Int), (399999 : Int)) ∈ (runOps lostWorkState [Op.requestWork 1 1]).1 ∧
    ¬((200000 : Int) ≤ 1000 ∧ (1000 : Int) ≤ 399999) :=
  ⟨by decide, by decide,
   disconnect_drops_range.2.2.2 [Op.requestWork 1 1] (by decide)
     (200000, 399999) (by decide) 1000 (by decide)⟩

/-- C8 counterexample: with two registered workers, two `handle_found`
calls reporting the same value leave GlobalOutcome holding the
first-delivered value, but two fan-out stop broadcasts occur, not
exactly one: `notify_all_clients` runs once per report. -/
theorem duplicate_found_two_broadcasts :
    (handle_found 1 "0000000042" (handle_found 0 "0000000042" twoClientsState)).found_number =
      some "0000000042" ∧
    (handle_found 1 "0000000042" (handle_found 0 "0000000042" twoClientsState)).broadcasts = 2 ∧
    ¬((handle_found 1 "0000000042" (handle_found 0 "0000000042" twoClientsState)).broadcasts
        = 1) := by
  decide

/-- C8 (amended): duplicate found reports after the first leave
GlobalOutcome holding the first-delivered value, but every report,
duplicates included, triggers its own fan-out stop broadcast, so two
reports produce two broadcasts. -/
theorem duplicate_found_reports_amended (s : ServerState) (conn conn' : Nat)
    (v v' : String) (h : s.found = false) :
    (handle_found conn v s).found_number = some v ∧
    (handle_found conn v s).broadcasts = s.broadcasts + 1 ∧
    (handle_found conn' v' (handle_found conn v s)).found_number = some v ∧
    (handle_found conn' v' (handle_found conn v s)).broadcasts = s.broadcasts + 2 := by
  have h1 : (handle_found conn v s).found = true := by
    rw [handle_found_of_unset conn v h]
  have e1 := handle_found_of_unset conn v h
  refine ⟨by rw [e1], by rw [e1], ?_, ?_⟩
  · rw [handle_found_of_set conn' v' h1, e1]
  · rw [handle_found_of_set conn' v' h1, e1]

theorem duplicate_found_reports_amended_witness :
    twoClientsState.found = false ∧
    ((handle_found 0 "0000000007" twoClientsState).found_number = some "0000000007" ∧
     (handle_found 0 "0000000007" twoClientsState).broadcasts =
       twoClientsState.broadcasts + 1 ∧
     (handle_found 1 "0000000008" (handle_found 0 "0000000007" twoClientsState)).found_number =
       some "0000000007" ∧
     (handle_found 1 "0000000008" (handle_found 0 "0000000007" twoClientsState)).broadcasts =
       twoClientsState.broadcasts + 2) :=
  ⟨by decide, duplicate_found_reports_amended twoClientsState 0 1 "0000000007" "0000000008" (by decide)⟩

lemma chain_cursor_le {bs : List (Int × Int)} :
    ∀ {c c' : Int}, Chain c bs c' → c ≤ c' := by
  induction bs with
  | nil => intro c c' h; exact le_of_eq h
  | cons q rest ih =>
      intro c c' h
      obtain ⟨a, b⟩ := q
      obtain ⟨h1, h2, h3, h4⟩ := h
      have := ih h4
      omega

lemma chain_mem {bs : List (Int × Int)} :
    ∀ {c c' : Int}, Chain c bs c' → ∀ p ∈ bs,
      c ≤ p.1 ∧ p.1 ≤ p.2 ∧ p.2 < c' ∧ p.2 ≤ END_NUMBER := by
  induction bs with
  | nil => intro c c' _ p hp; simp at hp
  | cons q rest ih =>
      intro c c' h p hp
      obtain ⟨a, b⟩ := q
      obtain ⟨h1, h2, h3, h4⟩ := h
      rcases List.mem_cons.mp hp with rfl | hmem
      · have hb := chain_cursor_le h4
        exact ⟨by omega, by omega, by omega, h3⟩
      · have := ih h4 p hmem
        exact ⟨by omega, this.2.1, this.2.2.1, this.2.2.2⟩

lemma chain_pairwise {bs : List (Int × Int)} :
    ∀ {c c' : Int}, Chain c bs c' → bs.Pairwise (fun p q => p.2 < q.1) := by
  induction bs with
  | nil => intro c c' _; exact List.Pairwise.nil
  | cons q rest ih =>
      intro c c' h
      obtain ⟨a, b⟩ := q
      obtain ⟨h1, h2, h3, h4⟩ := h
      refine List.Pairwise.cons ?_ (ih h4)
      intro p hp
      have := chain_mem h4 p hp
      show b < p.1
      omega

lemma chain_cover {bs : List (Int × Int)} :
    ∀ {c c' : Int}, Chain c bs c' → ∀ n : Int, c ≤ n → n < c' →
      ∃ p ∈ bs, p.1 ≤ n ∧ n ≤ p.2 := by
  induction bs with
  | nil =>
      intro c c' h n h1 h2
      exfalso
      have h' : c = c' := h
      omega
  | cons q rest ih =>
      intro c c' h n h1 h2
      obtain ⟨a, b⟩ := q
      obtain ⟨ha, hb, hEnd, hch⟩ := h
      rcases le_or_lt n b with hnb | hnb
      · exact ⟨(a, b), List.mem_cons_self _ _, by omega, hnb⟩
      · obtain ⟨p, hp, hps⟩ := ih hch n (by omega) h2
        exact ⟨p, List.mem_cons_of_mem _ hp, hps⟩

lemma runRequests_chain (reqs : List (Nat × Int)) :
    ∀ s : ServerState, s.found = false → (∀ r ∈ reqs, 1 ≤ r.2) →
      Chain s.current_number (runRequests s reqs).1
        (runRequests s reqs).2.current_number ∧
      (runRequests s reqs).2.found = false := by
  induction reqs with
  | nil => intro s hf _; exact ⟨rfl, hf⟩
  | cons r rest ih =>
      obtain ⟨conn, cores⟩ := r
      intro s hf hc
      have hcore : (1 : Int) ≤ cores := hc (conn, cores) (List.mem_cons_self _ _)
      have hrestc : ∀ r ∈ rest, (1 : Int) ≤ r.2 :=
        fun r hr => hc r (List.mem_cons_of_mem _ hr)
      simp only [runRequests]
      rcases le_or_lt s.current_number END_NUMBER with hcur | hcur
      · rw [assign_work_of_avail conn cores hf hcur]
        dsimp only
        have hrest := ih
          { s with
              current_number :=
                min (s.current_number + BLOCK_SIZE_PER_CORE * cores - 1) END_NUMBER + 1
              assigned_work :=
                (conn, s.current_number,
                  min (s.current_number + BLOCK_SIZE_PER_CORE * cores - 1) END_NUMBER) ::
                  s.assigned_work.filter (fun p => p.1 ≠ conn) }
          hf hrestc
        have hbs := block_size_pos hcore
        exact ⟨⟨rfl, by omega, by omega, hrest.1⟩, hrest.2⟩
      · rw [assign_work_of_exhausted conn cores hf hcur]
        dsimp only
        exact ih
          { s with assigned_work := s.assigned_work.filter (fun p => p.1 ≠ conn) }
          hf hrestc

/-- C1: along any sequence of `request_work` calls with no disconnects
starting from a state with GlobalOutcome unset and all core counts at
least 1: every block issued from an un-exhausted cursor has the exact
form `[cursor, min (cursor + BLOCK_SIZE_PER_CORE * cores - 1) END_NUMBER]`
at the moment of issue, the issued blocks are pairwise disjoint (each
ends strictly before the next starts), and once the cursor passes
`END_NUMBER` their union covers `[initial cursor, END_NUMBER]` exactly:
a value lies in that interval iff some issued block contains it, and
disjointness makes that block unique. -/
theorem requestBlock_partition (s : ServerState) (reqs : List (Nat × Int))
    (hf : s.found = false) (hc : ∀ r ∈ reqs, (1 : Int) ≤ r.2) :
    (∀ (t : ServerState) (conn : Nat) (cores : Int),
      t.found = false → t.current_number ≤ END_NUMBER →
      (assign_work conn cores t).1 =
        Reply.work t.current_number
          (min (t.current_number + BLOCK_SIZE_PER_CORE * cores - 1) END_NUMBER)
          TARGET_HASH) ∧
    (runRequests s reqs).1.Pairwise (fun p q => p.2 < q.1) ∧
    (END_NUMBER < (runRequests s reqs).2.current_number →
      ∀ n : Int,
        (s.current_number ≤ n ∧ n ≤ END_NUMBER) ↔
          ∃ p ∈ (runRequests s reqs).1, p.1 ≤ n ∧ n ≤ p.2) := by
  have hch := runRequests_chain reqs s hf hc
  refine ⟨?_, chain_pairwise hch.1, ?_⟩
  · intro t conn cores htf htc
    rw [assign_work_of_avail conn cores htf htc]
  · intro hpast n
    constructor
    · rintro ⟨hn1, hn2⟩
      exact chain_cover hch.1 n hn1 (by omega)
    · rintro ⟨p, hp, hp1, hp2⟩
      have := chain_mem hch.1 p hp
      exact ⟨by omega, by omega⟩

theorem requestBlock_partition_witness :
    initialState.found = false ∧
    (∀ r ∈ [((0 : Nat), (1 : Int)), ((1 : Nat), (2 : Int))], (1 : Int) ≤ r.2) ∧
    ((∀ (t : ServerState) (conn : Nat) (cores : Int),
        t.found = false → t.current_number ≤ END_NUMBER →
        (assign_work conn cores t).1 =
          Reply.work t.current_number
            (min (t.current_number + BLOCK_SIZE_PER_CORE * cores - 1) END_NUMBER)
            TARGET_HASH) ∧
     (runRequests initialState [(0, 1), (1, 2)]).1.Pairwise (fun p q => p.2 < q.1) ∧
     (END_NUMBER < (runRequests initialState [(0, 1), (1, 2)]).2.current_number →
       ∀ n : Int,
         (initialState.current_number ≤ n ∧ n ≤ END_NUMBER) ↔
           ∃ p ∈ (runRequests initialState [(0, 1), (1, 2)]).1, p.1 ≤ n ∧ n ≤ p.2)) :=
  ⟨by decide, by decide,
   requestBlock_partition initialState [(0, 1), (1, 2)] (by decide) (by decide)⟩

lemma per_process_nonneg {start fin cores : Int} (h1 : start ≤ fin) (h2 : 1 ≤ cores) :
    0 ≤ per_process start fin cores := by
  rw [per_process, Int.fdiv_eq_ediv _ (by omega)]
  exact Int.ediv_nonneg (by omega) (by omega)

lemma per_process_mul_le {start fin cores : Int} (h1 : start ≤ fin) (h2 : 1 ≤ cores) :
    cores * per_process start fin cores ≤ fin - start + 1 := by
  rw [per_process, Int.fdiv_eq_ediv _ (by omega)]
  have hid := Int.ediv_add_emod (fin - start + 1) cores
  have hnn := Int.emod_nonneg (fin - start + 1) (by omega : cores ≠ 0)
  omega

lemma process_start_le_fin {start fin cores : Int} (h1 : start ≤ fin) (h2 : 1 ≤ cores)
    {i : Int} (hi0 : 0 ≤ i) (hic : i < cores) :
    process_start start fin cores i ≤ fin := by
  have hp0 := per_process_nonneg h1 h2
  have hPt := per_process_mul_le h1 h2
  have hiP : i * per_process start fin cores ≤ (cores - 1) * per_process start fin cores :=
    mul_le_mul_of_nonneg_right (by omega) hp0
  have hexp : (cores - 1) * per_process start fin cores =
      cores * per_process start fin cores - per_process start fin cores := by ring
  rw [process_start]
  rcases le_or_lt 1 (per_process start fin cores) with hP | hP
  · omega
  · have hP0 : per_process start fin cores = 0 := by omega
    rw [hP0, mul_zero]
    omega

lemma process_end_le_fin {start fin cores : Int} (h1 : start ≤ fin) (h2 : 1 ≤ cores)
    {i : Int} (hi0 : 0 ≤ i) (hic : i < cores) :
    process_end start fin cores i ≤ fin := by
  have hp0 := per_process_nonneg h1 h2
  have hPt := per_process_mul_le h1 h2
  rw [process_end]
  split
  · have hiP : (i + 1) * per_process start fin cores ≤
        cores * per_process start fin cores :=
      mul_le_mul_of_nonneg_right (by omega) hp0
    omega
  · exact le_rfl

lemma start_le_process_start {start fin cores : Int} (h1 : start ≤ fin) (h2 : 1 ≤ cores)
    {i : Int} (hi0 : 0 ≤ i) :
    start ≤ process_start start fin cores i := by
  have hp0 := per_process_nonneg h1 h2
  have := mul_nonneg hi0 hp0
  rw [process_start]
  omega

lemma process_end_lt_next {start fin cores : Int} (h1 : start ≤ fin) (h2 : 1 ≤ cores)
    {i j : Int} (hi0 : 0 ≤ i) (hij : i < j) (hjc : j < cores) :
    process_end start fin cores i < process_start start fin cores j := by
  have hp0 := per_process_nonneg h1 h2
  have hmul : (i + 1) * per_process start fin cores ≤ j * per_process start fin cores :=
    mul_le_mul_of_nonneg_right (by omega) hp0
  rw [process_end, process_start, if_pos (by omega : i < cores - 1)]
  omega

lemma process_cover {start fin cores : Int} (h1 : start ≤ fin) (h2 : 1 ≤ cores)
    {n : Int} (hn1 : start ≤ n) (hn2 : n ≤ fin) :
    ∃ i : Int, 0 ≤ i ∧ i < cores ∧
      process_start start fin cores i ≤ n ∧ n ≤ process_end start fin cores i := by
  have hp0 := per_process_nonneg h1 h2
  rcases le_or_lt (start + (cores - 1) * per_process start fin cores) n with hA | hB
  · refine ⟨cores - 1, by omega, by omega, ?_, ?_⟩
    · rw [process_start]; omega
    · rw [process_end, if_neg (lt_irrefl _)]; exact hn2
  · have hP1 : 1 ≤ per_process start fin cores := by
      by_contra hcon
      have hP0 : per_process start fin cores = 0 := by omega
      rw [hP0, mul_zero] at hB
      omega
    have hq0 : 0 ≤ (n - start) / per_process start fin cores :=
      Int.ediv_nonneg (by omega) (by omega)
    have hqle : (n - start) / per_process start fin cores * per_process start fin cores ≤
        n - start :=
      Int.ediv_mul_le (n - start) (by omega)
    have hqlt : n - start <
        ((n - start) / per_process start fin cores + 1) * per_process start fin cores :=
      Int.lt_ediv_add_one_mul_self (n - start) (by omega)
    have hqc : (n - start) / per_process start fin cores < cores - 1 := by
      by_contra hge
      push_neg at hge
      have := mul_le_mul_of_nonneg_right hge hp0
      omega
    refine ⟨(n - start) / per_process start fin cores, hq0, by omega, ?_, ?_⟩
    · rw [process_start]; omega
    · rw [process_end, if_pos hqc]; omega

/-- C6: for every block `[start, end]` with `start ≤ end` and every core
count at least 1, the sub-range split of `process_work` starts at
`start`, ends at `end`, is contiguous (each sub-range begins right
after the previous one ends), stays inside the block, covers every
value of the block by some sub-range, and is pairwise non-overlapping. -/
theorem process_split_partition (start fin cores : Int)
    (h1 : start ≤ fin) (h2 : 1 ≤ cores) :
    process_start start fin cores 0 = start ∧
    process_end start fin cores (cores - 1) = fin ∧
    (∀ i : Int, 0 ≤ i → i + 1 < cores →
      process_start start fin cores (i + 1) = process_end start fin cores i + 1) ∧
    (∀ i : Int, 0 ≤ i → i < cores →
      start ≤ process_start start fin cores i ∧ process_end start fin cores i ≤ fin) ∧
    (∀ n : Int, start ≤ n → n ≤ fin →
      ∃ i : Int, 0 ≤ i ∧ i < cores ∧
        process_start start fin cores i ≤ n ∧ n ≤ process_end start fin cores i) ∧
    (∀ i j n : Int, 0 ≤ i → i < cores → 0 ≤ j → j < cores → i ≠ j →
      ¬(process_start start fin cores i ≤ n ∧ n ≤ process_end start fin cores i ∧
        process_start start fin cores j ≤ n ∧ n ≤ process_end start fin cores j)) := by
  refine ⟨?_, ?_, ?_, ?_, ?_, ?_⟩
  · rw [process_start, zero_mul]; ring
  · rw [process_end, if_neg (lt_irrefl _)]
  · intro i hi0 hic
    rw [process_start, process_end, if_pos (by omega : i < cores - 1)]
    ring
  · intro i hi0 hic
    exact ⟨start_le_process_start h1 h2 hi0, process_end_le_fin h1 h2 hi0 hic⟩
  · intro n hn1 hn2
    exact process_cover h1 h2 hn1 hn2
  · intro i j n hi0 hic hj0 hjc hne hcon
    rcases lt_or_gt_of_ne hne with hij | hij
    · have := process_end_lt_next h1 h2 hi0 hij hjc
      omega
    · have := process_end_lt_next h1 h2 hj0 hij hic
      omega

theorem process_split_partition_witness :
    (0 : Int) ≤ 99 ∧ (1 : Int) ≤ 4 ∧
    (process_start 0 99 4 0 = 0 ∧ process_end 0 99 4 0 = 24 ∧
     process_start 0 99 4 1 = 25 ∧ process_end 0 99 4 1 = 49 ∧
     process_start 0 99 4 2 = 50 ∧ process_end 0 99 4 2 = 74 ∧
     process_start 0 99 4 3 = 75 ∧ process_end 0 99 4 3 = 99) ∧
    (process_start 0 99 4 0 = 0 ∧ process_end 0 99 4 (4 - 1) = 99 ∧
     (∀ i : Int, 0 ≤ i → i + 1 < 4 →
       process_start 0 99 4 (i + 1) = process_end 0 99 4 i + 1) ∧
     (∀ i : Int, 0 ≤ i → i < 4 →
       (0 : Int) ≤ process_start 0 99 4 i ∧ process_end 0 99 4 i ≤ 99) ∧
     (∀ n : Int, 0 ≤ n → n ≤ 99 →
       ∃ i : Int, 0 ≤ i ∧ i < 4 ∧
         process_start 0 99 4 i ≤ n ∧ n ≤ process_end 0 99 4 i) ∧
     (∀ i j n : Int, 0 ≤ i → i < 4 → 0 ≤ j → j < 4 → i ≠ j →
       ¬(process_start 0 99 4 i ≤ n ∧ n ≤ process_end 0 99 4 i ∧
         process_start 0 99 4 j ≤ n ∧ n ≤ process_end 0 99 4 j))) :=
  ⟨by decide, by decide, by decide,
   process_split_partition 0 99 4 (by decide) (by decide)⟩

lemma workerAux_eq_some (target : String) :
    ∀ (k : Nat) (n : Int) (s : String),
      workerAux target n k = some s ↔
        ∃ m : Int, n ≤ m ∧ m < n + k ∧ hash_result m = target ∧ s = numStr m ∧
          ∀ j : Int, n ≤ j → j < m → hash_result j ≠ target := by
  intro k
  induction k with
  | zero =>
      intro n s
      simp only [workerAux]
      constructor
      · intro h; exact absurd h (by simp)
      · rintro ⟨m, hm1, hm2, -⟩
        exfalso
        simp only [Nat.cast_zero] at hm2
        omega
  | succ k ih =>
      intro n s
      simp only [workerAux]
      by_cases h : hash_result n = target
      · rw [if_pos h]
        constructor
        · intro he
          have hs : s = numStr n := (Option.some_inj.mp he).symm
          refine ⟨n, le_rfl, by push_cast; omega, h, hs, ?_⟩
          intro j hj1 hj2
          exact absurd hj2 (not_lt.mpr hj1)
        · rintro ⟨m, hm1, hm2, hm3, hm4, hm5⟩
          have hmn : m = n := by
            by_contra hne
            exact hm5 n le_rfl (lt_of_le_of_ne hm1 (Ne.symm hne)) h
          rw [hm4, hmn]
      · rw [if_neg h, ih (n + 1)]
        constructor
        · rintro ⟨m, hm1, hm2, hm3, hm4, hm5⟩
          refine ⟨m, by omega, by push_cast at hm2 ⊢; omega, hm3, hm4, ?_⟩
          intro j hj1 hj2
          rcases eq_or_lt_of_le hj1 with rfl | hj1'
          · exact h
          · exact hm5 j (by omega) hj2
        · rintro ⟨m, hm1, hm2, hm3, hm4, hm5⟩
          have hmn : m ≠ n := fun he => h (he ▸ hm3)
          refine ⟨m, by omega, by push_cast at hm2 ⊢; omega, hm3, hm4, ?_⟩
          intro j hj1 hj2
          exact hm5 j (by omega) hj2

lemma workerAux_eq_none (target : String) :
    ∀ (k : Nat) (n : Int),
      workerAux target n k = none ↔
        ∀ m : Int, n ≤ m → m < n + k → hash_result m ≠ target := by
  intro k
  induction k with
  | zero =>
      intro n
      constructor
      · intro _ m hm1 hm2
        exfalso
        simp only [Nat.cast_zero] at hm2
        omega
      · intro _
        rfl
  | succ k ih =>
      intro n
      simp only [workerAux]
      by_cases h : hash_result n = target
      · rw [if_pos h]
        constructor
        · intro he; exact absurd he (by simp)
        · intro hall
          exact absurd h (hall n le_rfl (by push_cast; omega))
      · rw [if_neg h, ih (n + 1)]
        constructor
        · intro hall m hm1 hm2
          rcases eq_or_lt_of_le hm1 with rfl | hm1'
          · exact h
          · exact hall m (by omega) (by push_cast at hm2 ⊢; omega)
        · intro hall m hm1 hm2
          exact hall m (by omega) (by push_cast at hm2 ⊢; omega)

lemma worker_eq_some (start fin : Int) (target s : String) :
    worker start fin target = some s ↔
      ∃ m : Int, start ≤ m ∧ m ≤ fin ∧ hash_result m = target ∧ s = numStr m ∧
        ∀ j : Int, start ≤ j → j < m → hash_result j ≠ target := by
  rw [worker, workerAux_eq_some]
  constructor
  · rintro ⟨m, hm1, hm2, hm3, hm4, hm5⟩
    exact ⟨m, hm1, by omega, hm3, hm4, hm5⟩
  · rintro ⟨m, hm1, hm2, hm3, hm4, hm5⟩
    exact ⟨m, hm1, by omega, hm3, hm4, hm5⟩

lemma worker_eq_none (start fin : Int) (target : String) :
    worker start fin target = none ↔
      ∀ m : Int, start ≤ m → m ≤ fin → hash_result m ≠ target := by
  rw [worker, workerAux_eq_none]
  constructor
  · intro hall m hm1 hm2
    exact hall m hm1 (by omega)
  · intro hall m hm1 hm2
    exact hall m hm1 (by omega)

/-- C7: the worker's scan over `[start, end]` reports a value iff some
candidate in the range has an upper-cased MD5 hex digest equal to the
target; when it reports, the value is the 10-digit zero-padded string
of the first (smallest) matching candidate, every earlier candidate
being a non-match; and when the range has no match it reports nothing. -/
theorem worker_scan_correct (start fin : Int) (target : String) :
    ((worker start fin target).isSome = true ↔
      ∃ n : Int, start ≤ n ∧ n ≤ fin ∧ hash_result n = target) ∧
    (∀ s : String, worker start fin target = some s →
      ∃ n : Int, start ≤ n ∧ n ≤ fin ∧ hash_result n = target ∧ s = numStr n ∧
        ∀ m : Int, start ≤ m → m < n → hash_result m ≠ target) ∧
    (worker start fin target = none →
      ∀ n : Int, start ≤ n → n ≤ fin → hash_result n ≠ target) := by
  refine ⟨⟨?_, ?_⟩, ?_, ?_⟩
  · intro hs
    obtain ⟨s, hs⟩ := Option.isSome_iff_exists.mp hs
    obtain ⟨n, h1, h2, h3, -, -⟩ := (worker_eq_some start fin target s).mp hs
    exact ⟨n, h1, h2, h3⟩
  · rintro ⟨n, h1, h2, h3⟩
    rcases hw : worker start fin target with - | s
    · exact absurd h3 ((worker_eq_none start fin target).mp hw n h1 h2)
    · rfl
  · intro s hs
    exact (worker_eq_some start fin target s).mp hs
  · intro hn n h1 h2
    exact (worker_eq_none start fin target).mp hn n h1 h2

set_option maxRecDepth 1000000 in
set_option maxHeartbeats 4000000 in
theorem worker_scan_correct_witness :
    worker 0 99 "2FB362FBF84BEDB41530AF52286EA596" = some "0000000042" ∧
    worker 0 99 TARGET_HASH = none ∧
    (∃ n : Int, 0 ≤ n ∧ n ≤ 99 ∧
      hash_result n = "2FB362FBF84BEDB41530AF52286EA596" ∧ "0000000042" = numStr n ∧
      ∀ m : Int, 0 ≤ m → m < n → hash_result m ≠ "2FB362FBF84BEDB41530AF52286EA596") ∧
    (∀ n : Int, 0 ≤ n → n ≤ 99 → hash_result n ≠ TARGET_HASH) :=
  ⟨by decide, by decide,
   (worker_scan_correct 0 99 "2FB362FBF84BEDB41530AF52286EA596").2.1 "0000000042" (by decide),
   (worker_scan_correct 0 99 TARGET_HASH).2.2 (by decide)⟩

/-- C10: when the worker's scan reports a value for a matching
candidate `n`, the reported value is the 10-digit zero-padded decimal
string `numStr n` (the string put on the result queue), not the integer
itself, and `handle_found` stores exactly that reported string in
`found_number`; in particular `numStr 42 = "0000000042"`. -/
theorem reported_value_is_canonical_string (start fin : Int) (target s : String) :
    (worker start fin target = some s →
      ∃ n : Int, start ≤ n ∧ n ≤ fin ∧ s = numStr n ∧ hash_result n = target) ∧
    (∀ st : ServerState, ∀ conn : Nat, ∀ v : String, st.found = false →
      (handle_found conn v st).found_number = some v) ∧
    numStr 42 = "0000000042" := by
  refine ⟨?_, ?_, by decide⟩
  · intro hs
    obtain ⟨n, h1, h2, h3, h4, -⟩ := (worker_eq_some start fin target s).mp hs
    exact ⟨n, h1, h2, h4, h3⟩
  · intro st conn v h
    rw [handle_found_of_unset conn v h]

set_option maxRecDepth 1000000 in
set_option maxHeartbeats 4000000 in
theorem reported_value_is_canonical_string_witness :
    worker 0 99 "2FB362FBF84BEDB41530AF52286EA596" = some (numStr 42) ∧
    (∃ n : Int, 0 ≤ n ∧ n ≤ 99 ∧ numStr 42 = numStr n ∧
      hash_result n = "2FB362FBF84BEDB41530AF52286EA596") ∧
    initialState.found = false ∧
    (handle_found 3 (numStr 42) initialState).found_number = some (numStr 42) :=
  ⟨by decide,
   (reported_value_is_canonical_string 0 99 "2FB362FBF84BEDB41530AF52286EA596"
     (numStr 42)).1 (by decide),
   by decide,
   (reported_value_is_canonical_string 0 99 "2FB362FBF84BEDB41530AF52286EA596"
     (numStr 42)).2.1 initialState 3 (numStr 42) (by decide)⟩
